import Mathlib

/-!
Formal model of `dice_loss.py`: soft Dice loss variants for binary and
multi-class segmentation (`SoftDiceLossV1`, `SoftDiceLossV2` with its custom
autograd function `SoftDiceLossV2Func`, `GeneralizedSoftDiceLoss`,
`BatchSoftDiceLoss`).

Tensors are embedded as functions from finite index types to `ℝ`; a batched
tensor of shape `(N, H, W)` is a function `Fin N → ι → ℝ` where `ι` is the
(finite) pixel index type, instantiated with `Fin H × Fin W` at concrete
inputs.  Floating point arithmetic is idealized as real arithmetic.  The
power `probs.pow(p)` for a real exponent `p` is embedded as `Real.rpow`
(well-defined since sigmoid outputs are strictly positive).  In-place tensor
mutation (`mul_`, `div_`, ...) is modelled by value threading: an operation
`t.mul_(c)` both yields and replaces the value of `t`, which matters in
`SoftDiceLossV2Func.backward` where `N.mul_(2)` doubles `N` before `N` is
read again in the divisor `(probs.pow(p) + N).pow(2)`.
-/

namespace DiceLoss

noncomputable section

/-- `torch.sigmoid`, elementwise: `1 / (1 + exp (-x))`. -/
def sigmoid (x : ℝ) : ℝ := 1 / (1 + Real.exp (-x))

theorem one_add_exp_neg_pos (x : ℝ) : 0 < 1 + Real.exp (-x) := by
  have h := Real.exp_pos (-x)
  linarith

theorem sigmoid_pos (x : ℝ) : 0 < sigmoid x :=
  div_pos one_pos (one_add_exp_neg_pos x)

theorem sigmoid_lt_one (x : ℝ) : sigmoid x < 1 := by
  rw [sigmoid, div_lt_one (one_add_exp_neg_pos x)]
  have h := Real.exp_pos (-x)
  linarith

theorem sigmoid_zero : sigmoid 0 = 1 / 2 := by
  rw [sigmoid, neg_zero, Real.exp_zero]
  norm_num

/-- `SoftDiceLossV1.forward` before the reduction step: per-sample loss
vector `1 - (2*numer + smooth) / (denor + smooth)` with
`numer = (probs * labels).sum(dim=(1,2))` and
`denor = (probs.pow(p) + labels).sum(dim=(1,2))`. -/
def SoftDiceLossV1_lossVec {B : ℕ} {ι : Type*} [Fintype ι] (p smooth : ℝ)
    (logits labels : Fin B → ι → ℝ) : Fin B → ℝ :=
  fun b =>
    let probs := fun i => sigmoid (logits b i)
    let numer := ∑ i, probs i * labels b i
    let denor := ∑ i, (probs i ^ p + labels b i)
    1 - (2 * numer + smooth) / (denor + smooth)

/-- `numer` as cached by `SoftDiceLossV2Func.forward`:
`2 * (probs * labels).sum(dim=(1,2)) + smooth`, one scalar per sample. -/
def v2_numer {ι : Type*} [Fintype ι] (smooth : ℝ) (probs labels : ι → ℝ) : ℝ :=
  2 * (∑ i, probs i * labels i) + smooth

/-- `denor` as cached by `SoftDiceLossV2Func.forward`:
`(probs.pow(p) + labels).sum(dim=(1,2)) + smooth`, one scalar per sample. -/
def v2_denor {ι : Type*} [Fintype ι] (p smooth : ℝ) (probs labels : ι → ℝ) : ℝ :=
  (∑ i, (probs i ^ p + labels i)) + smooth

/-- Per-sample loss of `SoftDiceLossV2Func.forward`: `1 - numer / denor`. -/
def SoftDiceLossV2Func_loss {ι : Type*} [Fintype ι] (p smooth : ℝ)
    (logits labels : ι → ℝ) : ℝ :=
  let probs := fun i => sigmoid (logits i)
  1 - v2_numer smooth probs labels / v2_denor p smooth probs labels

/-- `SoftDiceLossV2Func.forward` on a batch, before any reduction. -/
def SoftDiceLossV2Func_lossVec {B : ℕ} {ι : Type*} [Fintype ι] (p smooth : ℝ)
    (logits labels : Fin B → ι → ℝ) : Fin B → ℝ :=
  fun b => SoftDiceLossV2Func_loss p smooth (logits b) (labels b)

/-- The binary forward loss formula as the specification states it:
`loss[n] = 1 - (2*sum(sigmoid(L)*Y) + smooth) / (sum(sigmoid(L)^p + Y) + smooth)`. -/
def specLossVec {B : ℕ} {ι : Type*} [Fintype ι] (p smooth : ℝ)
    (logits labels : Fin B → ι → ℝ) : Fin B → ℝ :=
  fun b =>
    1 - (2 * (∑ i, sigmoid (logits b i) * labels b i) + smooth) /
      ((∑ i, (sigmoid (logits b i) ^ p + labels b i)) + smooth)

/-- All-zero logits of shape `(1, 2, 2)` for the concrete spec scenario. -/
def zeroLogits : Fin 1 → Fin 2 × Fin 2 → ℝ := fun _ _ => 0

/-- All-one labels of shape `(1, 2, 2)` for the concrete spec scenario. -/
def oneLabels : Fin 1 → Fin 2 × Fin 2 → ℝ := fun _ _ => 1

/-- Claim C3: for logits and 0/1 labels of shape (N,H,W), both `SoftDiceLossV1`
and `SoftDiceLossV2Func` (before reduction) return the per-sample vector
`loss[n] = 1 - (2*sum(sigmoid(L)*Y) + smooth) / (sum(sigmoid(L)^p + Y) + smooth)`;
at all-zero logits of shape (1,2,2), all-one labels, p = 1, smooth = 1, the
loss is `1 - 5/7`. -/
theorem forward_loss_matches_spec_formula :
    (∀ (B : ℕ) (ι : Type) (_ : Fintype ι) (p smooth : ℝ)
        (logits labels : Fin B → ι → ℝ),
        SoftDiceLossV1_lossVec p smooth logits labels
            = specLossVec p smooth logits labels ∧
        SoftDiceLossV2Func_lossVec p smooth logits labels
            = specLossVec p smooth logits labels) ∧
    SoftDiceLossV1_lossVec 1 1 zeroLogits oneLabels 0 = 1 - 5 / 7 ∧
    SoftDiceLossV2Func_lossVec 1 1 zeroLogits oneLabels 0 = 1 - 5 / 7 := by
  refine ⟨fun B ι _ p smooth logits labels => ⟨rfl, rfl⟩, ?_, ?_⟩
  · show (1 : ℝ) - (2 * (∑ i : Fin 2 × Fin 2, sigmoid 0 * 1) + 1) /
        ((∑ i : Fin 2 × Fin 2, (sigmoid 0 ^ (1 : ℝ) + 1)) + 1) = 1 - 5 / 7
    rw [sigmoid_zero, Real.rpow_one]
    rw [Finset.sum_const, Finset.sum_const]
    norm_num
  · show (1 : ℝ) - (2 * (∑ i : Fin 2 × Fin 2, sigmoid 0 * 1) + 1) /
        ((∑ i : Fin 2 × Fin 2, (sigmoid 0 ^ (1 : ℝ) + 1)) + 1) = 1 - 5 / 7
    rw [sigmoid_zero, Real.rpow_one]
    rw [Finset.sum_const, Finset.sum_const]
    norm_num

/-- Result of a loss forward pass: either an aggregated scalar (after `mean`
or `sum` reduction) or the untouched per-sample vector. -/
inductive TOut (B : ℕ) where
  | scalar (x : ℝ) : TOut B
  | vec (v : Fin B → ℝ) : TOut B

/-- The reduction wrapper shared by `SoftDiceLossV1.forward` and
`SoftDiceLossV2.forward`: `mean` averages, `sum` sums, anything else
returns the loss vector unchanged. -/
def reduceLoss {B : ℕ} (policy : String) (loss : Fin B → ℝ) : TOut B :=
  if policy = "mean" then TOut.scalar ((∑ b, loss b) / B)
  else if policy = "sum" then TOut.scalar (∑ b, loss b)
  else TOut.vec loss

/-- The example loss vector `[0.2, 0.4, 0.6]` from the specification. -/
def lossVecExample : Fin 3 → ℝ := ![0.2, 0.4, 0.6]

/-- Claim C7: the reduction wrapper returns the arithmetic mean for `"mean"`,
the sum for `"sum"`, and the vector unchanged (without error) for `"none"` or
any unrecognized policy; on `[0.2, 0.4, 0.6]`, `mean` gives `0.4` and `sum`
gives `1.2`. -/
theorem reduceLoss_policy_correct :
    (∀ (B : ℕ) (v : Fin B → ℝ),
        reduceLoss "mean" v = TOut.scalar ((∑ b, v b) / B) ∧
        reduceLoss "sum" v = TOut.scalar (∑ b, v b) ∧
        reduceLoss "none" v = TOut.vec v ∧
        ∀ r : String, r ≠ "mean" → r ≠ "sum" → reduceLoss r v = TOut.vec v) ∧
    reduceLoss "mean" lossVecExample = TOut.scalar 0.4 ∧
    reduceLoss "sum" lossVecExample = TOut.scalar 1.2 ∧
    reduceLoss "none" lossVecExample = TOut.vec lossVecExample := by
  refine ⟨fun B v => ⟨rfl, rfl, rfl, fun r h1 h2 => ?_⟩, ?_, ?_, rfl⟩
  · rw [reduceLoss, if_neg h1, if_neg h2]
  · rw [reduceLoss, if_pos rfl]
    congr 1
    rw [Fin.sum_univ_three]
    show ((0.2 : ℝ) + 0.4 + 0.6) / 3 = 0.4
    norm_num
  · rw [reduceLoss, if_neg (by decide), if_pos rfl]
    congr 1
    rw [Fin.sum_univ_three]
    show (0.2 : ℝ) + 0.4 + 0.6 = 1.2
    norm_num

/-- Witness for C7 at the concrete unrecognized policy `"batchmean"`. -/
theorem reduceLoss_policy_correct_witness :
    ("batchmean" ≠ "mean" ∧ "batchmean" ≠ "sum") ∧
    reduceLoss "batchmean" lossVecExample = TOut.vec lossVecExample :=
  ⟨⟨by decide, by decide⟩,
    (reduceLoss_policy_correct.1 3 lossVecExample).2.2.2 "batchmean"
      (by decide) (by decide)⟩

/-- The context `ctx.vars` saved by `SoftDiceLossV2Func.forward` for the
paired backward call. -/
structure V2Ctx (B : ℕ) (ι : Type*) where
  probs : Fin B → ι → ℝ
  labels : Fin B → ι → ℝ
  numer : Fin B → ℝ
  denor : Fin B → ℝ
  p : ℝ
  smooth : ℝ

/-- `SoftDiceLossV2Func.forward` with its hidden state made explicit: the
incoming autograd context is consumed (and overwritten), the per-sample loss
vector and the freshly populated context are returned. -/
def SoftDiceLossV2Func_apply {B : ℕ} {ι : Type*} [Fintype ι] (p smooth : ℝ)
    (logits labels : Fin B → ι → ℝ) (_ctx : Option (V2Ctx B ι)) :
    (Fin B → ℝ) × Option (V2Ctx B ι) :=
  let probs := fun b i => sigmoid (logits b i)
  let numer := fun b => v2_numer smooth (probs b) (labels b)
  let denor := fun b => v2_denor p smooth (probs b) (labels b)
  (fun b => 1 - numer b / denor b, some ⟨probs, labels, numer, denor, p, smooth⟩)

/-- Claim C9: the forward pass is deterministic and keeps no hidden state
that affects a later call: the loss vector of `SoftDiceLossV2Func.forward`
does not depend on the incoming autograd context, and calling forward a
second time (threading the context produced by the first call) returns the
same loss vector and the same context. -/
theorem v2_forward_deterministic {B : ℕ} {ι : Type*} [Fintype ι]
    (p smooth : ℝ) (logits labels : Fin B → ι → ℝ)
    (s₁ s₂ : Option (V2Ctx B ι)) :
    (SoftDiceLossV2Func_apply p smooth logits labels s₁).1
        = (SoftDiceLossV2Func_apply p smooth logits labels s₂).1 ∧
    (SoftDiceLossV2Func_apply p smooth logits labels
        (SoftDiceLossV2Func_apply p smooth logits labels s₁).2).1
        = (SoftDiceLossV2Func_apply p smooth logits labels s₁).1 ∧
    (SoftDiceLossV2Func_apply p smooth logits labels
        (SoftDiceLossV2Func_apply p smooth logits labels s₁).2).2
        = (SoftDiceLossV2Func_apply p smooth logits labels s₁).2 :=
  ⟨rfl, rfl, rfl⟩

/-! ## Multi-class variants: one-hot masking and the generalized/batch losses

Labels of the multi-class variants are integer class ids (possibly the
ignore sentinel), embedded as `ℤ`-valued tensors of shape `(N, H, W)`. -/

/-- The line `label = label.clone(); label[ignore] = 0`: ignored entries are
replaced by class 0 on a fresh copy of the caller's label tensor. -/
def replaceIgnored {B H W : ℕ} (ig : ℤ) (label : Fin B → Fin H → Fin W → ℤ) :
    Fin B → Fin H → Fin W → ℤ :=
  fun b h w => if label b h w = ig then 0 else label b h w

/-- `torch.zeros_like(logits).scatter_(1, label.unsqueeze(1), 1)`: a one at
the channel named by the (already ignore-replaced) label, zero elsewhere. -/
def scatterOneHot (C : ℕ) {B H W : ℕ} (label : Fin B → Fin H → Fin W → ℤ) :
    Fin B → Fin C → Fin H → Fin W → ℝ :=
  fun b c h w => if label b h w = ((c : ℕ) : ℤ) then 1 else 0

/-- The advanced-indexing line `lb_one_hot[[a, arange(C), *b]] = 0`: all `C`
channels are zeroed at every pixel whose original label is the sentinel. -/
def zeroIgnored (C : ℕ) {B H W : ℕ} (ig : ℤ) (label : Fin B → Fin H → Fin W → ℤ)
    (oneHot : Fin B → Fin C → Fin H → Fin W → ℝ) :
    Fin B → Fin C → Fin H → Fin W → ℝ :=
  fun b c h w => if label b h w = ig then 0 else oneHot b c h w

/-- The one-hot label tensor `lb_one_hot` built by the ignore-label masking
utility shared by `GeneralizedSoftDiceLoss.forward` and
`BatchSoftDiceLoss.forward`. -/
def lb_one_hot (C : ℕ) {B H W : ℕ} (ig : ℤ) (label : Fin B → Fin H → Fin W → ℤ) :
    Fin B → Fin C → Fin H → Fin W → ℝ :=
  zeroIgnored C ig label (scatterOneHot C (replaceIgnored ig label))

/-- Domain of `scatter_` along the class axis: every index must lie in
`[0, C)`; otherwise torch raises an index-out-of-range error. -/
abbrev scatterIndexOK (C : ℕ) {B H W : ℕ}
    (label : Fin B → Fin H → Fin W → ℤ) : Prop :=
  ∀ b h w, 0 ≤ label b h w ∧ label b h w < (C : ℤ)

/-- `GeneralizedSoftDiceLoss.forward`: one-hot masking, per-(sample, class)
numerator/denominator, optional per-class weight scaling, class-axis sums,
per-sample loss, and the mean-only reduction.  Returns `none` when the
one-hot `scatter_` would fail on an out-of-range class index. -/
def GeneralizedSoftDiceLoss_forward {B C H W : ℕ} (p smooth : ℝ)
    (weight : Option (Fin C → ℝ)) (ig : ℤ) (policy : String)
    (logits : Fin B → Fin C → Fin H → Fin W → ℝ)
    (label : Fin B → Fin H → Fin W → ℤ) : Option (TOut B) :=
  if scatterIndexOK C (replaceIgnored ig label) then
    let oneHot := lb_one_hot C ig label
    let probs := fun b c h w => sigmoid (logits b c h w)
    let numer := fun b c => ∑ h, ∑ w, probs b c h w * oneHot b c h w
    let denom := fun b c => ∑ h, ∑ w, (probs b c h w ^ p + oneHot b c h w ^ p)
    let numerW := fun b c => match weight with
      | none => numer b c
      | some wt => numer b c * wt c
    let denomW := fun b c => match weight with
      | none => denom b c
      | some wt => denom b c * wt c
    let numer1 := fun b => ∑ c, numerW b c
    let denom1 := fun b => ∑ c, denomW b c
    let loss := fun b => 1 - (2 * numer1 b + smooth) / (denom1 b + smooth)
    some (if policy = "mean" then TOut.scalar ((∑ b, loss b) / B) else TOut.vec loss)
  else none

/-- `BatchSoftDiceLoss.forward`: identical to the generalized variant up to
the weighted per-(sample, class) numerator/denominator, but summed globally
over samples and classes before the single scalar loss. -/
def BatchSoftDiceLoss_forward {B C H W : ℕ} (p smooth : ℝ)
    (weight : Option (Fin C → ℝ)) (ig : ℤ)
    (logits : Fin B → Fin C → Fin H → Fin W → ℝ)
    (label : Fin B → Fin H → Fin W → ℤ) : Option ℝ :=
  if scatterIndexOK C (replaceIgnored ig label) then
    let oneHot := lb_one_hot C ig label
    let probs := fun b c h w => sigmoid (logits b c h w)
    let numer := fun b c => ∑ h, ∑ w, probs b c h w * oneHot b c h w
    let denom := fun b c => ∑ h, ∑ w, (probs b c h w ^ p + oneHot b c h w ^ p)
    let numerW := fun b c => match weight with
      | none => numer b c
      | some wt => numer b c * wt c
    let denomW := fun b c => match weight with
      | none => denom b c
      | some wt => denom b c * wt c
    let numer1 := ∑ b, ∑ c, numerW b c
    let denom1 := ∑ b, ∑ c, denomW b c
    some (1 - (2 * numer1 + smooth) / (denom1 + smooth))
  else none

/-- Claim C5: the one-hot tensor built by the masking utility sums, across
the class axis, to exactly 1 at every non-ignored pixel and to exactly 0 at
every pixel whose label equals the ignore sentinel, for labels whose
non-ignored values are valid class ids in `[0, C)`. -/
theorem one_hot_channel_sums {B C H W : ℕ} (ig : ℤ)
    (label : Fin B → Fin H → Fin W → ℤ)
    (hval : ∀ b h w, label b h w = ig ∨
      (0 ≤ label b h w ∧ label b h w < (C : ℤ)))
    (b : Fin B) (h : Fin H) (w : Fin W) :
    (label b h w = ig → ∑ c : Fin C, lb_one_hot C ig label b c h w = 0) ∧
    (label b h w ≠ ig → ∑ c : Fin C, lb_one_hot C ig label b c h w = 1) := by
  constructor
  · intro hig
    simp [lb_one_hot, zeroIgnored, hig]
  · intro hne
    rcases hval b h w with hig | ⟨h0, hC⟩
    · exact absurd hig hne
    have hlt : (label b h w).toNat < C := by omega
    have hcast : ((label b h w).toNat : ℤ) = label b h w := Int.toNat_of_nonneg h0
    have hiff : ∀ c : Fin C,
        (label b h w = ((c : ℕ) : ℤ)) ↔ c = ⟨(label b h w).toNat, hlt⟩ := by
      intro c
      constructor
      · intro hEq
        apply Fin.ext
        show (c : ℕ) = (label b h w).toNat
        omega
      · intro hEq
        subst hEq
        exact hcast.symm
    calc ∑ c : Fin C, lb_one_hot C ig label b c h w
        = ∑ c : Fin C, if c = ⟨(label b h w).toNat, hlt⟩ then (1 : ℝ) else 0 := by
          refine Finset.sum_congr rfl (fun c _ => ?_)
          rw [lb_one_hot, zeroIgnored, if_neg hne, scatterOneHot,
            replaceIgnored, if_neg hne]
          by_cases hc : label b h w = ((c : ℕ) : ℤ)
          · rw [if_pos hc, if_pos ((hiff c).mp hc)]
          · rw [if_neg hc, if_neg (fun hcc => hc ((hiff c).mpr hcc))]
      _ = 1 := by simp

/-- Label tensor of shape (1,1,2) with one ignored and one ordinary pixel,
used as concrete input for the one-hot masking claims. -/
def wlabelMix : Fin 1 → Fin 1 → Fin 2 → ℤ := fun _ _ w => if w = 0 then 255 else 1

/-- Witness for C5: with `C = 2` classes and `ignore_lb = 255`, the class-axis
sum of the one-hot tensor is 0 at the ignored pixel and 1 at the other. -/
theorem one_hot_channel_sums_witness :
    (∑ c : Fin 2, lb_one_hot 2 255 wlabelMix 0 c 0 0 = 0) ∧
    (∑ c : Fin 2, lb_one_hot 2 255 wlabelMix 0 c 0 1 = 1) :=
  ⟨(one_hot_channel_sums 255 wlabelMix (by decide) 0 0 0).1 (by decide),
    (one_hot_channel_sums 255 wlabelMix (by decide) 0 0 1).2 (by decide)⟩

/-- Claim C6: with valid labels, `GeneralizedSoftDiceLoss.forward` computes
`numer[n,c] = sum_{h,w}(probs*one_hot)`, `denom[n,c] = sum_{h,w}(probs^p +
one_hot^p)`, scales both by `weight[c]` when a weight vector is given (factor
1 otherwise), sums both over the class axis, forms
`loss[n] = 1 - (2*numer[n] + smooth) / (denom[n] + smooth)`, and mean-reduces
exactly when the reduction policy is `"mean"`, returning the per-sample
vector otherwise. -/
theorem generalized_forward_formula {B C H W : ℕ} (p smooth : ℝ)
    (weight : Option (Fin C → ℝ)) (ig : ℤ) (policy : String)
    (logits : Fin B → Fin C → Fin H → Fin W → ℝ)
    (label : Fin B → Fin H → Fin W → ℤ)
    (hval : scatterIndexOK C (replaceIgnored ig label)) :
    GeneralizedSoftDiceLoss_forward p smooth weight ig policy logits label =
      some (
        let wf : Fin C → ℝ := fun c => (weight.map (fun wt => wt c)).getD 1
        let loss : Fin B → ℝ := fun b => 1 -
          (2 * (∑ c, (∑ h, ∑ w, sigmoid (logits b c h w) * lb_one_hot C ig label b c h w) * wf c) + smooth) /
          ((∑ c, (∑ h, ∑ w, (sigmoid (logits b c h w) ^ p + lb_one_hot C ig label b c h w ^ p)) * wf c) + smooth)
        if policy = "mean" then TOut.scalar ((∑ b, loss b) / B) else TOut.vec loss) := by
  rw [GeneralizedSoftDiceLoss_forward, if_pos hval]
  cases weight with
  | none => simp [Option.map, Option.getD]
  | some wt => simp [Option.map, Option.getD]

/-- All-zero logits of shape (1,1,1,1) for the multi-class witnesses. -/
def wlogits0 : Fin 1 → Fin 1 → Fin 1 → Fin 1 → ℝ := fun _ _ _ _ => 0

/-- All-zero labels of shape (1,1,1) for the multi-class witnesses. -/
def wlabel0 : Fin 1 → Fin 1 → Fin 1 → ℤ := fun _ _ _ => 0

/-- Witness for C6 at a concrete valid input (one class, one pixel, no
weight, policy `"none"`). -/
theorem generalized_forward_formula_witness :
    scatterIndexOK 1 (replaceIgnored 255 wlabel0) ∧
    GeneralizedSoftDiceLoss_forward 1 1 none 255 "none" wlogits0 wlabel0 =
      some (
        let wf : Fin 1 → ℝ := fun c => ((none : Option (Fin 1 → ℝ)).map (fun wt => wt c)).getD 1
        let loss : Fin 1 → ℝ := fun b => 1 -
          (2 * (∑ c, (∑ h, ∑ w, sigmoid (wlogits0 b c h w) * lb_one_hot 1 255 wlabel0 b c h w) * wf c) + 1) /
          ((∑ c, (∑ h, ∑ w, (sigmoid (wlogits0 b c h w) ^ (1 : ℝ) + lb_one_hot 1 255 wlabel0 b c h w ^ (1 : ℝ))) * wf c) + 1)
        if "none" = "mean" then TOut.scalar ((∑ b, loss b) / 1) else TOut.vec loss) :=
  ⟨by decide,
    generalized_forward_formula 1 1 none 255 "none" wlogits0 wlabel0 (by decide)⟩

/-- Claim C8: if some non-ignored label entry is `≥ C` or negative, the
one-hot construction (the `scatter_` on the class axis) fails with an
index-range error, so the multi-class forward produces no loss value. -/
theorem invalid_label_fails {B C H W : ℕ} (p smooth : ℝ)
    (weight : Option (Fin C → ℝ)) (ig : ℤ) (policy : String)
    (logits : Fin B → Fin C → Fin H → Fin W → ℝ)
    (label : Fin B → Fin H → Fin W → ℤ)
    (hbad : ∃ b h w, label b h w ≠ ig ∧
      (label b h w < 0 ∨ (C : ℤ) ≤ label b h w)) :
    GeneralizedSoftDiceLoss_forward p smooth weight ig policy logits label = none := by
  obtain ⟨b, h, w, hne, hout⟩ := hbad
  rw [GeneralizedSoftDiceLoss_forward, if_neg]
  intro hval
  have hbw := hval b h w
  rw [replaceIgnored, if_neg hne] at hbw
  omega

/-- Out-of-range label tensor (value 5 with a single class) for the C8 witness. -/
def wlabelBad : Fin 1 → Fin 1 → Fin 1 → ℤ := fun _ _ _ => 5

/-- Witness for C8: label value 5 with `C = 1` classes and sentinel 255 makes
the forward fail. -/
theorem invalid_label_fails_witness :
    (∃ b h w, wlabelBad b h w ≠ 255 ∧
      (wlabelBad b h w < 0 ∨ ((1 : ℕ) : ℤ) ≤ wlabelBad b h w)) ∧
    GeneralizedSoftDiceLoss_forward 1 1 none 255 "mean" wlogits0 wlabelBad = none :=
  ⟨by decide,
    invalid_label_fails 1 1 none 255 "mean" wlogits0 wlabelBad (by decide)⟩

/-- `GeneralizedSoftDiceLoss.forward` with the caller's label tensor threaded
as explicit state: the function reads the caller's tensor, performs the
ignore replacement on a clone (`replaceIgnored`), and never writes the
caller's cell, so the state handed back is the tensor it received. -/
def GeneralizedSoftDiceLoss_forward_run {B C H W : ℕ} (p smooth : ℝ)
    (weight : Option (Fin C → ℝ)) (ig : ℤ) (policy : String)
    (logits : Fin B → Fin C → Fin H → Fin W → ℝ)
    (label : Fin B → Fin H → Fin W → ℤ) :
    Option (TOut B) × (Fin B → Fin H → Fin W → ℤ) :=
  (GeneralizedSoftDiceLoss_forward p smooth weight ig policy logits label, label)

/-- `BatchSoftDiceLoss.forward` with the caller's label tensor threaded as
explicit state, as in `GeneralizedSoftDiceLoss_forward_run`. -/
def BatchSoftDiceLoss_forward_run {B C H W : ℕ} (p smooth : ℝ)
    (weight : Option (Fin C → ℝ)) (ig : ℤ)
    (logits : Fin B → Fin C → Fin H → Fin W → ℝ)
    (label : Fin B → Fin H → Fin W → ℤ) :
    Option ℝ × (Fin B → Fin H → Fin W → ℤ) :=
  (BatchSoftDiceLoss_forward p smooth weight ig logits label, label)

/-- Claim C10: both multi-class forwards leave the caller's label tensor
unchanged — the sentinel replacement is applied to an internal clone
(`replaceIgnored`), which genuinely differs from the caller's tensor when a
sentinel entry is present (shown at `wlabelMix`), while the state returned to
the caller is always the original tensor. -/
theorem forward_preserves_caller_labels :
    (∀ (B C H W : ℕ) (p smooth : ℝ) (weight : Option (Fin C → ℝ)) (ig : ℤ)
        (policy : String) (logits : Fin B → Fin C → Fin H → Fin W → ℝ)
        (label : Fin B → Fin H → Fin W → ℤ),
        (GeneralizedSoftDiceLoss_forward_run p smooth weight ig policy logits label).2
            = label ∧
        (BatchSoftDiceLoss_forward_run p smooth weight ig logits label).2 = label) ∧
    replaceIgnored 255 wlabelMix ≠ wlabelMix :=
  ⟨fun B C H W p smooth weight ig policy logits label => ⟨rfl, rfl⟩,
    by
      intro hEq
      have h0 := congrFun (congrFun (congrFun hEq 0) 0) 0
      rw [replaceIgnored] at h0
      simp [wlabelMix] at h0⟩

/-! ## Shape-aware model of the binary forward

For the shape-mismatch claim the `(N, H, W)` tensors are modelled with
explicit runtime shapes, and the elementwise operations of the numeric
substrate carry torch's broadcasting rule: two sizes are compatible when they
are equal or one of them is 1; incompatible sizes raise a shape error
(embedded as `none`). -/

/-- A rank-3 tensor: a runtime shape and (total) element function. -/
structure Tensor3 where
  n : ℕ
  h : ℕ
  w : ℕ
  data : ℕ → ℕ → ℕ → ℝ

/-- A rank-1 tensor (the per-sample loss vector). -/
structure Tensor1 where
  n : ℕ
  data : ℕ → ℝ

/-- torch broadcasting of one dimension pair: equal sizes, or a size of 1
stretched to the other; anything else is a shape error. -/
def bcastDim (a b : ℕ) : Option ℕ :=
  if a = b then some a else if a = 1 then some b else if b = 1 then some a else none

/-- Reading a (possibly stretched) size-1 dimension always hits index 0. -/
def bidx (size i : ℕ) : ℕ := if size = 1 then 0 else i

/-- Elementwise binary operation with broadcasting; `none` on incompatible
shapes (the torch runtime shape-mismatch error). -/
def ewise (f : ℝ → ℝ → ℝ) (x y : Tensor3) : Option Tensor3 :=
  match bcastDim x.n y.n, bcastDim x.h y.h, bcastDim x.w y.w with
  | some n, some h, some w =>
      some ⟨n, h, w, fun i j k =>
        f (x.data (bidx x.n i) (bidx x.h j) (bidx x.w k))
          (y.data (bidx y.n i) (bidx y.h j) (bidx y.w k))⟩
  | _, _, _ => none

/-- Elementwise unary operation (`torch.sigmoid`, `pow`): shape preserved. -/
def tmap (f : ℝ → ℝ) (x : Tensor3) : Tensor3 :=
  ⟨x.n, x.h, x.w, fun i j k => f (x.data i j k)⟩

/-- `.sum(dim=(1, 2))`: per-sample spatial sum. -/
def sumHW (x : Tensor3) : ℕ → ℝ :=
  fun i => ∑ j ∈ Finset.range x.h, ∑ k ∈ Finset.range x.w, x.data i j k

/-- `SoftDiceLossV1.forward` (pre-reduction) with runtime shapes: `probs *
labels` and `probs.pow(p) + labels` follow torch broadcasting; a shape error
in either elementwise op aborts the computation with no loss value. -/
def SoftDiceLossV1_forwardT (p smooth : ℝ) (logits labels : Tensor3) :
    Option Tensor1 :=
  let probs := tmap sigmoid logits
  match ewise (fun a b => a * b) probs labels,
      ewise (fun a b => a + b) (tmap (fun v => v ^ p) probs) labels with
  | some numerT, some denorT =>
      some ⟨numerT.n, fun i =>
        1 - (2 * sumHW numerT i + smooth) / (sumHW denorT i + smooth)⟩
  | _, _ => none

/-- Logits of shape (1,2,2), all zero: broadcastable against (3,2,2). -/
def bLogits : Tensor3 := ⟨1, 2, 2, fun _ _ _ => 0⟩

/-- Labels of shape (3,2,2), all one: a different shape than `bLogits`. -/
def bLabels : Tensor3 := ⟨3, 2, 2, fun _ _ _ => 1⟩

/-- Counterexample to claim C4 as stated: logits of shape (1,2,2) and labels
of shape (3,2,2) have different shapes, yet the binary forward raises no
error — broadcasting silently stretches the batch dimension and a length-3
loss vector `1 - 5/7` is returned. -/
theorem mismatched_shapes_still_compute :
    (bLogits.n, bLogits.h, bLogits.w) ≠ (bLabels.n, bLabels.h, bLabels.w) ∧
    SoftDiceLossV1_forwardT 1 1 bLogits bLabels =
      some ⟨3, fun _ => 1 - 5 / 7⟩ := by
  refine ⟨by decide, ?_⟩
  show (some ⟨3, fun i =>
      1 - (2 * sumHW ⟨3, 2, 2, fun _ _ _ => sigmoid 0 * 1⟩ i + 1) /
        (sumHW ⟨3, 2, 2, fun _ _ _ => sigmoid 0 ^ (1 : ℝ) + 1⟩ i + 1)⟩ :
      Option Tensor1) = some ⟨3, fun _ => 1 - 5 / 7⟩
  refine congrArg some (congrArg (Tensor1.mk 3) (funext fun i => ?_))
  rw [sumHW, sumHW]
  show (1 : ℝ) - (2 * ∑ j ∈ Finset.range 2, ∑ k ∈ Finset.range 2,
      (sigmoid 0 * 1) + 1) /
      ((∑ j ∈ Finset.range 2, ∑ k ∈ Finset.range 2, (sigmoid 0 ^ (1 : ℝ) + 1)) + 1)
      = 1 - 5 / 7
  rw [sigmoid_zero, Real.rpow_one, Finset.sum_const, Finset.sum_const,
    Finset.sum_const, Finset.sum_const]
  norm_num

/-- Claim C4, amended: the binary forward fails with a shape error exactly
when some dimension pair of the two shapes is incompatible under torch
broadcasting (sizes differ and neither is 1); differing-but-broadcastable
shapes are silently broadcast instead of failing. -/
theorem forward_none_iff_incompatible (p smooth : ℝ) (logits labels : Tensor3) :
    SoftDiceLossV1_forwardT p smooth logits labels = none ↔
      (bcastDim logits.n labels.n = none ∨ bcastDim logits.h labels.h = none ∨
        bcastDim logits.w labels.w = none) := by
  rw [SoftDiceLossV1_forwardT]
  show (match ewise (fun a b => a * b) (tmap sigmoid logits) labels,
      ewise (fun a b => a + b) (tmap (fun v => v ^ p) (tmap sigmoid logits)) labels with
    | some numerT, some denorT =>
        some (⟨numerT.n, fun i =>
          1 - (2 * sumHW numerT i + smooth) / (sumHW denorT i + smooth)⟩ : Tensor1)
    | _, _ => none) = none ↔ _
  rw [ewise, ewise]
  show (match (match bcastDim logits.n labels.n, bcastDim logits.h labels.h,
        bcastDim logits.w labels.w with
      | some n, some h, some w => some (⟨n, h, w, fun i j k => _⟩ : Tensor3)
      | _, _, _ => none),
      (match bcastDim logits.n labels.n, bcastDim logits.h labels.h,
        bcastDim logits.w labels.w with
      | some n, some h, some w => some (⟨n, h, w, fun i j k => _⟩ : Tensor3)
      | _, _, _ => none) with
    | some numerT, some denorT => some (⟨numerT.n, fun i => _⟩ : Tensor1)
    | _, _ => none) = none ↔ _
  cases hn : bcastDim logits.n labels.n <;>
    cases hh : bcastDim logits.h labels.h <;>
    cases hw : bcastDim logits.w labels.w <;> simp

/-! ## The analytic gradient engine (`SoftDiceLossV2Func.backward`)

The backward translation tracks the in-place tensor arithmetic of the
source.  All `mul_`/`div_`/`neg_` calls act on fresh intermediates except
`N.mul_(2)`: evaluating the first branch argument of `torch.where` doubles
the tensor `N` itself, so the subsequent divisor `(probs.pow(p) + N).pow(2)`
reads the doubled value `2 * N`. -/

/-- `SoftDiceLossV2Func.backward` at one pixel `i` of one sample, given the
cached per-sample scalars `numer`, `denor` (already broadcast) and the
upstream gradient scalar `g` for the sample. -/
def SoftDiceLossV2Func_backward {ι : Type*} (p : ℝ) (probs labels : ι → ℝ)
    (numer denor g : ℝ) (i : ι) : ℝ :=
  let M := numer - 2 * (probs i * labels i)
  let N := denor - probs i ^ p
  let mppi_1 := probs i ^ (p - 1) * p * M
  let N2 := 2 * N
  let grads := if labels i = 1
    then probs i ^ p * (2 * (1 - p)) - mppi_1 + N2
    else -mppi_1
  let grads2 := -(grads / (probs i ^ p + N2) ^ 2 * probs i * (1 - probs i) * g)
  grads2

/-- The per-pixel backward formula exactly as the specification states it
(section 4.2): `M = numer - 2*probs*labels`, `N = denom - probs^p`,
`term = p*probs^(p-1)*M`,
`raw = where(labels==1, 2*(1-p)*probs^p - term + 2*N, -term)`,
gradient `= -(raw / (probs^p + N)^2 * probs * (1-probs) * g)`. -/
def specBackwardPixel {ι : Type*} (p : ℝ) (probs labels : ι → ℝ)
    (numer denor g : ℝ) (i : ι) : ℝ :=
  let M := numer - 2 * probs i * labels i
  let N := denor - probs i ^ p
  let term := p * probs i ^ (p - 1) * M
  let raw := if labels i = 1
    then 2 * (1 - p) * probs i ^ p - term + 2 * N
    else -term
  let grad := -(raw / (probs i ^ p + N) ^ 2 * probs i * (1 - probs i) * g)
  grad

/-- The specification's backward formula amended at the single point the
code forces: the divisor uses the doubled `2*N` left behind by the in-place
`N.mul_(2)`, i.e. gradient `= -(raw / (probs^p + 2*N)^2 * probs * (1-probs) * g)`. -/
def specBackwardPixel2N {ι : Type*} (p : ℝ) (probs labels : ι → ℝ)
    (numer denor g : ℝ) (i : ι) : ℝ :=
  let M := numer - 2 * probs i * labels i
  let N := denor - probs i ^ p
  let term := p * probs i ^ (p - 1) * M
  let raw := if labels i = 1
    then 2 * (1 - p) * probs i ^ p - term + 2 * N
    else -term
  let grad := -(raw / (probs i ^ p + 2 * N) ^ 2 * probs i * (1 - probs i) * g)
  grad

/-- Claim C2, amended: `SoftDiceLossV2Func.backward` computes the
specification's per-pixel formula with the divisor `(probs^p + 2*N)^2`
instead of `(probs^p + N)^2`. -/
theorem backward_eq_spec_formula_doubled_N {ι : Type*} (p : ℝ)
    (probs labels : ι → ℝ) (numer denor g : ℝ) (i : ι) :
    SoftDiceLossV2Func_backward p probs labels numer denor g i
      = specBackwardPixel2N p probs labels numer denor g i := by
  simp only [SoftDiceLossV2Func_backward, specBackwardPixel2N]
  split_ifs <;> ring

/-- Cached probabilities (all `1/2`) of a one-pixel forward pass at logits 0. -/
def cProbs : Fin 1 → ℝ := fun _ => 1 / 2

/-- All-one labels for the one-pixel counterexample inputs. -/
def cLabels1 : Fin 1 → ℝ := fun _ => 1

/-- Counterexample to claim C2 as stated: on the cached state of a forward
pass at one pixel with probability 1/2, label 1, `numer = 2`, `denom = 5/2`,
`p = 1`, upstream gradient 1, the code returns `-1/27` while the
specification's formula gives `-3/25`; the two differ. -/
theorem backward_ne_spec_formula :
    SoftDiceLossV2Func_backward 1 cProbs cLabels1 2 (5 / 2) 1 0 = -(1 / 27) ∧
    specBackwardPixel 1 cProbs cLabels1 2 (5 / 2) 1 0 = -(3 / 25) ∧
    SoftDiceLossV2Func_backward 1 cProbs cLabels1 2 (5 / 2) 1 0
      ≠ specBackwardPixel 1 cProbs cLabels1 2 (5 / 2) 1 0 := by
  have h1 : SoftDiceLossV2Func_backward 1 cProbs cLabels1 2 (5 / 2) 1 0 = -(1 / 27) := by
    norm_num [SoftDiceLossV2Func_backward, cProbs, cLabels1,
      Real.rpow_one, Real.rpow_zero]
  have h2 : specBackwardPixel 1 cProbs cLabels1 2 (5 / 2) 1 0 = -(3 / 25) := by
    norm_num [specBackwardPixel, cProbs, cLabels1,
      Real.rpow_one, Real.rpow_zero]
  refine ⟨h1, h2, ?_⟩
  rw [h1, h2]
  norm_num

/-- The derivative of the sigmoid: `σ' = σ * (1 - σ)`. -/
theorem hasDerivAt_sigmoid (x : ℝ) :
    HasDerivAt sigmoid (sigmoid x * (1 - sigmoid x)) x := by
  have hne : 1 + Real.exp (-x) ≠ 0 := ne_of_gt (one_add_exp_neg_pos x)
  have hexp : HasDerivAt (fun t : ℝ => Real.exp (-t)) (Real.exp (-x) * (-1)) x :=
    (Real.hasDerivAt_exp (-x)).comp x (hasDerivAt_id x).neg
  have hdiv : HasDerivAt (fun t : ℝ => 1 / (1 + Real.exp (-t)))
      ((0 * (1 + Real.exp (-x)) - 1 * (Real.exp (-x) * (-1))) /
        (1 + Real.exp (-x)) ^ 2) x :=
    (hasDerivAt_const x 1).div (hexp.const_add 1) hne
  have hval : sigmoid x * (1 - sigmoid x)
      = (0 * (1 + Real.exp (-x)) - 1 * (Real.exp (-x) * (-1))) /
        (1 + Real.exp (-x)) ^ 2 := by
    rw [sigmoid]
    field_simp
    ring
  rw [hval]
  exact hdiv

/-- Splitting a sum over all pixels at the updated pixel `i`. -/
theorem sum_update_split {ι : Type*} [Fintype ι] [DecidableEq ι]
    (x : ι → ℝ) (i : ι) (t : ℝ) (F : ι → ℝ → ℝ) :
    ∑ j, F j (Function.update x i t j)
      = F i t + ∑ j ∈ Finset.univ.erase i, F j (x j) := by
  rw [← Finset.add_sum_erase Finset.univ
    (fun j => F j (Function.update x i t j)) (Finset.mem_univ i)]
  rw [Function.update_same]
  congr 1
  refine Finset.sum_congr rfl fun j hj => ?_
  rw [Function.update_noteq (Finset.ne_of_mem_erase hj)]

/-- The specification's backward formula, rewritten as the quotient-rule
numerator over `denor^2`: for 0/1 labels it is exactly
`-((numer' * denor - numer * denor') / denor^2) * g` with
`numer' = 2 * probs * (1 - probs) * labels` and
`denor' = probs * (1 - probs) * p * probs^(p-1)`. -/
theorem specBackwardPixel_value {ι : Type*} (p : ℝ) (probs labels : ι → ℝ)
    (numer denor g : ℝ) (i : ι) (hsi : probs i ≠ 0) (hD : denor ≠ 0)
    (hy : labels i = 0 ∨ labels i = 1) :
    specBackwardPixel p probs labels numer denor g i
      = -((2 * (probs i * (1 - probs i) * labels i) * denor
          - numer * (probs i * (1 - probs i) * p * probs i ^ (p - 1))) / denor ^ 2) * g := by
  simp only [specBackwardPixel]
  rw [Real.rpow_sub_one hsi]
  rw [show probs i ^ p + (denor - probs i ^ p) = denor from by ring]
  rcases hy with h | h
  · simp only [h]
    rw [if_neg (by norm_num : ¬(0 : ℝ) = 1)]
    field_simp
    ring_nf
    exact Or.inl trivial
  · simp only [h, if_true]
    field_simp
    ring_nf

/-- The true partial derivative of the `SoftDiceLossV2Func` forward loss in
one logit coordinate: for 0/1 labels, `p ≥ 1` and `smooth > 0` it equals the
specification's per-pixel backward formula (upstream gradient 1) — i.e. the
spec formula in section 4.2 is the correct analytic gradient. -/
theorem v2_loss_update_hasDerivAt {ι : Type*} [Fintype ι] [DecidableEq ι]
    (p smooth : ℝ) (hp : 1 ≤ p) (hs : 0 < smooth)
    (logits labels : ι → ℝ) (hlab : ∀ j, labels j = 0 ∨ labels j = 1) (i : ι) :
    HasDerivAt
      (fun t => SoftDiceLossV2Func_loss p smooth (Function.update logits i t) labels)
      (specBackwardPixel p (fun j => sigmoid (logits j)) labels
        (v2_numer smooth (fun j => sigmoid (logits j)) labels)
        (v2_denor p smooth (fun j => sigmoid (logits j)) labels) 1 i)
      (logits i) := by
  have hsipos : 0 < sigmoid (logits i) := sigmoid_pos _
  have hsine : sigmoid (logits i) ≠ 0 := ne_of_gt hsipos
  have hfun : (fun t => SoftDiceLossV2Func_loss p smooth (Function.update logits i t) labels)
      = fun t => 1 - (2 * (sigmoid t * labels i +
            ∑ j ∈ Finset.univ.erase i, sigmoid (logits j) * labels j) + smooth) /
          (((sigmoid t ^ p + labels i) +
            ∑ j ∈ Finset.univ.erase i, (sigmoid (logits j) ^ p + labels j)) + smooth) := by
    funext t
    simp only [SoftDiceLossV2Func_loss, v2_numer, v2_denor]
    rw [sum_update_split logits i t fun j v => sigmoid v * labels j]
    rw [sum_update_split logits i t fun j v => sigmoid v ^ p + labels j]
  rw [hfun]
  have hst := hasDerivAt_sigmoid (logits i)
  have hnum : HasDerivAt (fun t => 2 * (sigmoid t * labels i +
        ∑ j ∈ Finset.univ.erase i, sigmoid (logits j) * labels j) + smooth)
      (2 * (sigmoid (logits i) * (1 - sigmoid (logits i)) * labels i)) (logits i) :=
    (((hst.mul_const (labels i)).add_const _).const_mul 2).add_const smooth
  have hden : HasDerivAt (fun t => ((sigmoid t ^ p + labels i) +
        ∑ j ∈ Finset.univ.erase i, (sigmoid (logits j) ^ p + labels j)) + smooth)
      (sigmoid (logits i) * (1 - sigmoid (logits i)) * p * sigmoid (logits i) ^ (p - 1))
      (logits i) :=
    (((hst.rpow_const (Or.inr hp)).add_const (labels i)).add_const _).add_const smooth
  have hlabnn : ∀ j, 0 ≤ labels j := by
    intro j
    rcases hlab j with h | h <;> norm_num [h]
  have hSnn : 0 ≤ ∑ j ∈ Finset.univ.erase i, (sigmoid (logits j) ^ p + labels j) :=
    Finset.sum_nonneg fun j _ =>
      add_nonneg (le_of_lt (Real.rpow_pos_of_pos (sigmoid_pos _) p)) (hlabnn j)
  have hDpos : 0 < ((sigmoid (logits i) ^ p + labels i) +
      ∑ j ∈ Finset.univ.erase i, (sigmoid (logits j) ^ p + labels j)) + smooth := by
    have h1 : 0 < sigmoid (logits i) ^ p := Real.rpow_pos_of_pos (sigmoid_pos _) p
    have h2 := hlabnn i
    linarith
  have hvNu : v2_numer smooth (fun j => sigmoid (logits j)) labels
      = 2 * (sigmoid (logits i) * labels i +
          ∑ j ∈ Finset.univ.erase i, sigmoid (logits j) * labels j) + smooth := by
    rw [v2_numer, ← Finset.add_sum_erase Finset.univ
      (fun j => sigmoid (logits j) * labels j) (Finset.mem_univ i)]
  have hvD : v2_denor p smooth (fun j => sigmoid (logits j)) labels
      = ((sigmoid (logits i) ^ p + labels i) +
          ∑ j ∈ Finset.univ.erase i, (sigmoid (logits j) ^ p + labels j)) + smooth := by
    rw [v2_denor, ← Finset.add_sum_erase Finset.univ
      (fun j => sigmoid (logits j) ^ p + labels j) (Finset.mem_univ i)]
  have hq := (hnum.div hden (ne_of_gt hDpos)).const_sub 1
  rw [specBackwardPixel_value p (fun j => sigmoid (logits j)) labels _ _ 1 i hsine
    (by rw [hvD]; exact ne_of_gt hDpos) (hlab i)]
  rw [hvNu, hvD, mul_one]
  exact hq

/-- One-pixel all-zero logits, shape (1,1,1), for the failing input of the
gradient claims. -/
def cLogits : Fin 1 → ℝ := fun _ => 0

/-- Claim C1 (failing input): at logits `[0]`, labels `[1]`, `p = 1`,
`smooth = 1`, upstream gradient 1, the true gradient of the forward formula
(the derivative of the loss in the single logit) is `-3/25 = -0.12`, but
`SoftDiceLossV2Func.backward`, fed the exact cache produced by the forward
pass, returns `-1/27 ≈ -0.037`: the analytic gradient engine does not match
the derivative of the mathematically equivalent forward formula (the
relative error is far beyond 1e-4), because the in-place `N.mul_(2)` doubles
`N` before the divisor `(probs.pow(p) + N).pow(2)` is formed. -/
theorem backward_differs_from_true_gradient :
    deriv (fun t => SoftDiceLossV2Func_loss 1 1 (Function.update cLogits 0 t) cLabels1)
        (cLogits 0) = -(3 / 25) ∧
    SoftDiceLossV2Func_backward 1 (fun j => sigmoid (cLogits j)) cLabels1
        (v2_numer 1 (fun j => sigmoid (cLogits j)) cLabels1)
        (v2_denor 1 1 (fun j => sigmoid (cLogits j)) cLabels1) 1 0 = -(1 / 27) := by
  have hNu : v2_numer 1 (fun j => sigmoid (cLogits j)) cLabels1 = 2 := by
    rw [v2_numer]
    norm_num [cLogits, cLabels1, sigmoid_zero]
  have hD : v2_denor 1 1 (fun j => sigmoid (cLogits j)) cLabels1 = 5 / 2 := by
    rw [v2_denor]
    norm_num [cLogits, cLabels1, sigmoid_zero, Real.rpow_one]
  constructor
  · rw [(v2_loss_update_hasDerivAt 1 1 le_rfl one_pos cLogits cLabels1
      (fun j => Or.inr rfl) 0).deriv]
    rw [hNu, hD]
    norm_num [specBackwardPixel, cLogits, cLabels1, sigmoid_zero,
      Real.rpow_one, Real.rpow_zero]
  · rw [hNu, hD]
    norm_num [SoftDiceLossV2Func_backward, cLogits, cLabels1, sigmoid_zero,
      Real.rpow_one, Real.rpow_zero]

end

end DiceLoss
